import Mathlib

/-!
Verification of the article-summary service (src/app.py).

Strings are modelled as `List Char` (Python `str` over the ASCII fragment that
the claims exercise).  The two core algorithms, `textrank_summarize` and
`extract_article_text`, are translated from the source; the HTTP handler
`api_summarize` is translated with the outbound fetch and the optional
HF-model call abstracted as oracles, since both are external collaborators.
-/

namespace ArticleSummary

/-- Whitespace characters: the ASCII fragment of Python's `str.strip` and of
the regex class `\s` used in `re.split` / `re.sub`. -/
def isWs (c : Char) : Bool :=
  c == ' ' || c == '\t' || c == '\n' || c == '\r' || c == '\x0b' || c == '\x0c'

/-- The sentence-ending punctuation of the regex class `[.!?]`. -/
def isSentPunct (c : Char) : Bool :=
  c == '.' || c == '!' || c == '?'

/-- ASCII letters: the regex class `[a-zA-Z]`. -/
def isAsciiLetter (c : Char) : Bool :=
  ('a' ≤ c && c ≤ 'z') || ('A' ≤ c && c ≤ 'Z')

/-- Python's `str.lower`, restricted to ASCII. -/
def lower (l : List Char) : List Char := l.map Char.toLower

/-- Remove trailing whitespace (the right half of Python's `str.strip`). -/
def trimRight : List Char → List Char
  | [] => []
  | c :: rest =>
      match trimRight rest with
      | [] => if isWs c then [] else [c]
      | r => c :: r

/-- Python's `str.strip`: remove leading and trailing whitespace. -/
def trim (l : List Char) : List Char := trimRight (l.dropWhile isWs)

/-- Python's `" ".join(pieces)`. -/
def joinSp : List (List Char) → List Char
  | [] => []
  | [s] => s
  | s :: rest => s ++ ' ' :: joinSp rest

/-- One left-to-right pass of `re.split` applied to the sentence pattern
lookbehind `[.!?]` then `\s+` (src/app.py line 69).  `cur` holds the current
sentence reversed; `skip` is true while the maximal whitespace run after a
split point is being consumed (the delimiter of the regex is that whole run,
and it is dropped). -/
def splitAux : List Char → List Char → Bool → List (List Char)
  | [], _, true => [[]]
  | [], cur, false => [cur.reverse]
  | c :: rest, cur, true =>
      if isWs c then splitAux rest cur true
      else splitAux rest [c] false
  | c :: rest, cur, false =>
      if isWs c && (match cur with | p :: _ => isSentPunct p | [] => false) then
        cur.reverse :: splitAux rest [] true
      else splitAux rest (c :: cur) false

/-- `re.split` at whitespace that follows sentence punctuation:
`sentences = re.split(..., text)` of src/app.py line 69. -/
def splitSentences (text : List Char) : List (List Char) :=
  splitAux text [] false

/-- `re.findall` applied to the letters pattern: maximal runs of ASCII
letters; `cur` holds the current run reversed. -/
def findWordsAux : List Char → List Char → List (List Char)
  | [], [] => []
  | [], cur => [cur.reverse]
  | c :: rest, cur =>
      if isAsciiLetter c then findWordsAux rest (c :: cur)
      else
        match cur with
        | [] => findWordsAux rest []
        | _ => cur.reverse :: findWordsAux rest []

/-- `re.findall` of the letters-only pattern over a string
(src/app.py lines 74 and 82). -/
def findWords (l : List Char) : List (List Char) := findWordsAux l []

/-- The global word-frequency table of src/app.py lines 75-77:
`freq[w]` is the number of occurrences of `w` among the lowercased words of
`text`; absent words give `freq.get(w, 0) = 0`. -/
def wordFreq (text : List Char) (w : List Char) : Nat :=
  (findWords (lower text)).count w

/-- Sentence score, src/app.py lines 82-83: the sum over the sentence's
lowercased words of their global frequencies (repeated words contribute each
occurrence). -/
def sentenceScore (text s : List Char) : Nat :=
  ((findWords (lower s)).map (wordFreq text)).sum

/-- Distinct elements in first-occurrence order: the key order of the Python
dict `scores` of src/app.py lines 80-84, which is built by repeated
assignment (a re-assignment keeps the key's original position, and the value
assigned to a given sentence string is the same each time). -/
def dedupFirstAux {α : Type} [DecidableEq α] (seen : List α) : List α → List α
  | [] => []
  | x :: xs =>
      if x ∈ seen then dedupFirstAux seen xs
      else x :: dedupFirstAux (x :: seen) xs

/-- Distinct elements in first-occurrence order. -/
def dedupFirst {α : Type} [DecidableEq α] (l : List α) : List α :=
  dedupFirstAux [] l

/-- Insert into a descending-sorted list, before the first element of score
not above `score x`.  Used with `foldr`-style processing this yields exactly
the stable descending order of `sorted(keys, key=score, reverse=True)`, which
is what `heapq.nlargest(n, it, key)` is documented (and implemented) to
produce: ties keep iteration order. -/
def insertDesc {α : Type} (score : α → Nat) (x : α) : List α → List α
  | [] => [x]
  | y :: ys =>
      if score y ≤ score x then x :: y :: ys else y :: insertDesc score x ys

/-- Stable descending sort by score (insertion sort). -/
def sortDesc {α : Type} (score : α → Nat) : List α → List α
  | [] => []
  | x :: xs => insertDesc score x (sortDesc score xs)

/-- `best = heapq.nlargest(n_sentences, scores, key=scores.get)` of
src/app.py line 86: the `n` highest-scoring distinct sentences, in descending
score order, ties in dict-insertion (first-occurrence) order. -/
def selectedSentences (text : List Char) (n : Nat) : List (List Char) :=
  (sortDesc (sentenceScore text) (dedupFirst (splitSentences text))).take n

/-- `textrank_summarize` of src/app.py lines 67-87. -/
def textrank_summarize (text : List Char) (n_sentences : Nat) : List Char :=
  if (splitSentences text).length ≤ n_sentences then text
  else joinSp (selectedSentences text n_sentences)

/-!
The HTML side.  A parsed document is a forest of nodes; a node is either a
text node (a `NavigableString`) or an element with a tag name and a child
forest.  The forest is a single first-order inductive so that every function
below is structurally recursive and kernel-computable.
-/

/-- A parsed HTML forest, as produced by `BeautifulSoup(resp.text,
"html.parser")`: `textCons s rest` is a text node followed by its right
siblings, `elemCons tag children rest` an element followed by its right
siblings. -/
inductive HForest : Type where
  | nil : HForest
  | textCons (s : List Char) (rest : HForest) : HForest
  | elemCons (tag : List Char) (children : HForest) (rest : HForest) : HForest
deriving DecidableEq

/-- The tags decomposed at src/app.py line 41. -/
def removedTags : List (List Char) :=
  ["script".toList, "style".toList, "noscript".toList, "iframe".toList,
   "header".toList, "footer".toList, "nav".toList]

/-- The candidate block tags of src/app.py line 44. -/
def candidateTags : List (List Char) :=
  ["article".toList, "div".toList, "section".toList, "main".toList]

/-- `for t in soup([...removedTags...]): t.decompose()` of src/app.py lines
41-42: every element whose tag is in `removedTags` is removed together with
its whole subtree. -/
def decompose : HForest → HForest
  | .nil => .nil
  | .textCons s rest => .textCons s (decompose rest)
  | .elemCons tag ch rest =>
      if tag ∈ removedTags then decompose rest
      else .elemCons tag (decompose ch) (decompose rest)

/-- `soup.find_all(tags)`: all elements of the forest whose tag is in `tags`,
in document (pre-order, depth-first) order, each returned as its tag plus its
child forest. -/
def findAll (tags : List (List Char)) : HForest → List (List Char × HForest)
  | .nil => []
  | .textCons _ rest => findAll tags rest
  | .elemCons tag ch rest =>
      (if tag ∈ tags then [(tag, ch)] else []) ++ findAll tags ch ++ findAll tags rest

/-- `tag.stripped_strings`: the descendant text nodes in document order, each
stripped, whitespace-only ones skipped.  `tag.get_text(" ", strip=True)` is
these pieces joined with a single space. -/
def strippedStrings : HForest → List (List Char)
  | .nil => []
  | .textCons s rest =>
      (if trim s = [] then [] else [trim s]) ++ strippedStrings rest
  | .elemCons _ ch rest => strippedStrings ch ++ strippedStrings rest

/-- `" ".join(p.get_text(" ", strip=True) for p in c.find_all("p")).strip()`
of src/app.py lines 55-56, for a candidate with child forest `c`. -/
def candidateParagraphText (c : HForest) : List Char :=
  trim (joinSp ((findAll ["p".toList] c).map (fun p => joinSp (strippedStrings p.2))))

/-- The best-candidate loop of src/app.py lines 54-59: strict
greater-than comparison on length, so the first candidate wins ties. -/
def bestLoop : List (List Char) → List Char → Nat → List Char
  | [], best, _ => best
  | t :: rest, best, bestLen =>
      if bestLen < t.length then bestLoop rest t t.length else bestLoop rest best bestLen

/-- `re.sub` collapsing each maximal whitespace run to a single space
(src/app.py line 61); `inRun` records that the previous character was
whitespace (its run has already emitted its space). -/
def collapseAux : List Char → Bool → List Char
  | [], _ => []
  | c :: rest, inRun =>
      if isWs c then
        if inRun then collapseAux rest true else ' ' :: collapseAux rest true
      else c :: collapseAux rest false

/-- `re.sub` of every maximal whitespace run to one space. -/
def collapseWs (l : List Char) : List Char := collapseAux l false

/-- The body-fallback return `" ".join(body.stripped_strings)[:max_chars]` of
src/app.py line 52, for the body element's child forest. -/
def bodyFallback (body : HForest) (max_chars : Nat) : List Char :=
  (joinSp (strippedStrings body)).take max_chars

/-- The candidate-selection return of src/app.py lines 54-62: best candidate
paragraph text, whitespace collapsed, stripped, prefix-truncated.  (With no
candidates this is the empty-string fall-through of the same lines.) -/
def candidateSelection (candidates : List (List Char × HForest)) (max_chars : Nat) : List Char :=
  (trim (collapseWs (bestLoop (candidates.map (fun c => candidateParagraphText c.2)) [] 0))).take
    max_chars

/-- `extract_article_text` of src/app.py lines 31-62, modelled from the
parsed document onward (the fetch is an external collaborator, handled in
`api_summarize`).  `soup.body` is the first `body` element in document order
(the "html.parser" builder does not synthesize one); when there are no
candidates and a body exists, the body fallback returns, otherwise the loop
over the candidates runs (over an empty list when there are none). -/
def extract_article_text (doc : HForest) (max_chars : Nat) : List Char :=
  match findAll candidateTags (decompose doc),
      (findAll ["body".toList] (decompose doc)).head? with
  | [], some body => bodyFallback body.2 max_chars
  | cs, _ => candidateSelection cs max_chars

/-!
The HTTP handler.  The outbound `requests.get` / `raise_for_status` / parse
of `extract_article_text` and the opaque `hf_summarize` call are modelled as
oracle outcomes; everything else follows src/app.py lines 108-136.
-/

/-- Exceptions the fetch can raise.  In the requests library `HTTPError` (the
non-2xx signal from `raise_for_status`), `ConnectionError` and `Timeout` are
sibling subclasses of `RequestException`: neither `ConnectionError` nor
`Timeout` is an `HTTPError`, so only `httpError` is caught by the
`except requests.HTTPError` clause of src/app.py line 133. -/
inductive PyExc : Type where
  | httpError | connectionError | timeoutError | otherError
deriving DecidableEq

/-- Outcome of `requests.get` + `raise_for_status` + parsing inside
`extract_article_text`: an exception, or a parsed document. -/
inductive FetchOutcome : Type where
  | raises (e : PyExc)
  | ok (doc : HForest)
deriving DecidableEq

/-- Outcome of the opaque `hf_summarize(article)` call of src/app.py line
125: it may raise, or return `None` or a summary string (it returns `None`
whenever the model is unavailable). -/
inductive HfOutcome : Type where
  | raises
  | returns (r : Option (List Char))
deriving DecidableEq

/-- The JSON responses of `api_summarize`, src/app.py lines 114-136. -/
inductive ApiResponse : Type where
  | ok (article summary : List Char) (used_hf : Bool)
  | badRequest
  | unprocessable
  | badGateway
  | internalError
deriving DecidableEq

/-- The HTTP status attached to each response. -/
def ApiResponse.status : ApiResponse → Nat
  | .ok _ _ _ => 200
  | .badRequest => 400
  | .unprocessable => 422
  | .badGateway => 502
  | .internalError => 500

/-- Python truthiness of the `summary` variable: `None` and `""` are falsy
(`if not summary:` of src/app.py line 129). -/
def isFalsy : Option (List Char) → Bool
  | none => true
  | some s => s.isEmpty

/-- The value of `summary` after src/app.py lines 122-127: `None` unless the
caller prefers the model and the call returns normally. -/
def hfSummary (prefer_hf : Bool) (hf : HfOutcome) : Option (List Char) :=
  if prefer_hf then
    match hf with
    | .raises => none
    | .returns r => r
  else none

/-- The value of `summary` after the fallback of src/app.py lines 129-130:
when the model summary is falsy (`None` or `""`), the deterministic
`textrank_summarize(article, n_sentences=4)` replaces it. -/
def finalSummary (article : List Char) (prefer_hf : Bool) (hf : HfOutcome) :
    Option (List Char) :=
  if isFalsy (hfSummary prefer_hf hf) then some (textrank_summarize article 4)
  else hfSummary prefer_hf hf

/-- The 200 response of src/app.py line 132.  `used_hf` is the Python
expression `HF_AVAILABLE and prefer_hf and (summary is not None and
HF_AVAILABLE)`, evaluated on the final value of `summary`. -/
def okResponse (article : List Char) (prefer_hf hf_available : Bool)
    (hf : HfOutcome) : ApiResponse :=
  .ok article ((finalSummary article prefer_hf hf).getD [])
    (hf_available && prefer_hf &&
      ((finalSummary article prefer_hf hf).isSome && hf_available))

/-- `api_summarize` of src/app.py lines 108-136.  `url` is the request's url
field after `.strip()`; `prefer_hf` the request flag; `hf_available` the
`HF_AVAILABLE` global; `fetch` the outcome of fetching and parsing the url;
`hf` the outcome of the `hf_summarize` call. -/
def api_summarize (url : List Char) (prefer_hf : Bool) (hf_available : Bool)
    (fetch : FetchOutcome) (hf : HfOutcome) : ApiResponse :=
  if url = [] then .badRequest
  else
    match fetch with
    | .raises .httpError => .badGateway
    | .raises _ => .internalError
    | .ok doc =>
        if extract_article_text doc 20000 = [] then .unprocessable
        else okResponse (extract_article_text doc 20000) prefer_hf hf_available hf

/-!
Whitespace-shape predicates used by the extraction claims, and concrete
inputs used by witnesses and counterexamples.
-/

/-- No two consecutive whitespace characters anywhere in the string. -/
def noWsRun : List Char → Bool
  | a :: b :: rest => !(isWs a && isWs b) && noWsRun (b :: rest)
  | _ => true

/-- The first character, if any, is not whitespace. -/
def noLeadingWs : List Char → Bool
  | [] => true
  | c :: _ => !isWs c

/-- The last character, if any, is not whitespace. -/
def noTrailingWs (l : List Char) : Bool := noLeadingWs l.reverse

/-- A text whose sentence split repeats one sentence five times. -/
def exRepText : List Char := "A. A. A. A. A.".toList

/-- A three-sentence text. -/
def exText3 : List Char := "Cats are small. Cats are furry. Dogs bark loudly.".toList

/-- A document whose only content is a body text node with an inner
whitespace run. -/
def exDocBody : HForest :=
  .elemCons "html".toList
    (.elemCons "body".toList (.textCons "a\n\nb".toList .nil) .nil) .nil

/-- A document with one div candidate holding one paragraph. -/
def exDocDiv : HForest :=
  .elemCons "div".toList
    (.elemCons "p".toList (.textCons "ab cd".toList .nil) .nil) .nil

/-!
Theorems for the claims.
-/

/-- Helper: the final `summary` variable of the handler is never `None`
(the fallback always assigns a string). -/
theorem finalSummary_isSome (article : List Char) (prefer_hf : Bool)
    (hf : HfOutcome) : (finalSummary article prefer_hf hf).isSome = true := by
  unfold finalSummary
  cases h : hfSummary prefer_hf hf with
  | none => simp [isFalsy]
  | some s => by_cases he : isFalsy (some s) = true <;> simp [he]

/-- C10: if the sentence split of the input has at most `n_sentences`
sentences, `textrank_summarize` returns the input unchanged; the empty
string splits into a single empty sentence and is returned unchanged. -/
theorem textrank_noop_when_few_sentences :
    (∀ (text : List Char) (n : Nat),
        (splitSentences text).length ≤ n → textrank_summarize text n = text)
    ∧ splitSentences [] = [[]]
    ∧ (∀ n : Nat, 1 ≤ n → textrank_summarize [] n = []) := by
  refine ⟨fun text n h => ?_, by decide, fun n hn => ?_⟩
  · simp [textrank_summarize, h]
  · have h1 : (splitSentences ([] : List Char)).length ≤ n := by
      simpa [splitSentences, splitAux] using hn
    simp [textrank_summarize, h1]

/-- Witness for C10 at a concrete one-sentence input. -/
theorem textrank_noop_when_few_sentences_witness :
    textrank_summarize "hi".toList 4 = "hi".toList :=
  textrank_noop_when_few_sentences.1 ("hi".toList) 4 (by decide)

/-- C8: on every path, the extractor output is truncated to at most
`max_chars` characters. -/
theorem extract_length_le_max_chars (doc : HForest) (max_chars : Nat)
    (_hpos : 0 < max_chars) : (extract_article_text doc max_chars).length ≤ max_chars := by
  unfold extract_article_text
  split
  · exact List.length_take_le _ _
  · exact List.length_take_le _ _

/-- Witness for C8 at a concrete document and bound. -/
theorem extract_length_le_max_chars_witness :
    (extract_article_text exDocDiv 3).length ≤ 3 :=
  extract_length_le_max_chars exDocDiv 3 (by decide)

/-- C2 counterexample: a fetch failing with a read timeout (or a connection
error) is not an `requests.HTTPError`, so it reaches the generic handler and
the endpoint answers 500, not 502. -/
theorem fetch_timeout_gives_500_not_502 :
    (api_summarize "u".toList true false (.raises .timeoutError) .raises).status ≠ 502
    ∧ (api_summarize "u".toList true false (.raises .timeoutError) .raises).status = 500 := by
  decide

/-- C2 amended: only a non-2xx HTTP status (the `requests.HTTPError` raised
by `raise_for_status`) is answered with 502; connection failures and
timeouts during the fetch fall through to the generic handler and are
answered with 500. -/
theorem fetch_error_statuses (url : List Char) (hu : url ≠ []) (prefer hfav : Bool)
    (hf : HfOutcome) :
    (api_summarize url prefer hfav (.raises .httpError) hf).status = 502
    ∧ (api_summarize url prefer hfav (.raises .connectionError) hf).status = 500
    ∧ (api_summarize url prefer hfav (.raises .timeoutError) hf).status = 500 := by
  refine ⟨?_, ?_, ?_⟩ <;> simp [api_summarize, hu, ApiResponse.status]

/-- Witness for the amended C2 at a concrete request. -/
theorem fetch_error_statuses_witness :
    (api_summarize "u".toList true true (.raises .httpError) (.returns none)).status = 502 :=
  (fetch_error_statuses ("u".toList) (by decide) true true (.returns none)).1

/-- C4: in every 200 response, `used_hf` equals
`HF_AVAILABLE && prefer_hf`, regardless of whether the model call actually
produced the summary (the final `summary` is never `None`, so the
`summary is not None` conjunct is always true). -/
theorem api_used_hf_eq (url : List Char) (prefer hfav : Bool)
    (fetch : FetchOutcome) (hf : HfOutcome) (a s : List Char) (u : Bool)
    (h : api_summarize url prefer hfav fetch hf = .ok a s u) :
    u = (hfav && prefer) := by
  unfold api_summarize at h
  split at h
  · simp at h
  · split at h
    · simp at h
    · simp at h
    · split at h
      · simp at h
      · unfold okResponse at h
        rw [ApiResponse.ok.injEq] at h
        rw [← h.2.2, finalSummary_isSome]
        cases hfav <;> cases prefer <;> rfl

/-- Witness for C4: a concrete 200 response produced by the fallback after
the model call raised, with `used_hf = true`. -/
theorem api_used_hf_eq_witness : true = (true && true) :=
  api_used_hf_eq ("u".toList) true true (.ok exDocDiv) .raises
    ("ab cd".toList) ("ab cd".toList) true (by decide)

/-- C9: when the caller prefers the model and the model call raises or
returns `None`, the endpoint still answers 200 with the fallback summary
`textrank_summarize(article, 4)`; no error is surfaced. -/
theorem api_hf_failure_falls_back (url : List Char) (hu : url ≠ []) (hfav : Bool)
    (doc : HForest) (ha : extract_article_text doc 20000 ≠ [])
    (hf : HfOutcome) (hhf : hf = .raises ∨ hf = .returns none) :
    api_summarize url true hfav (.ok doc) hf =
      .ok (extract_article_text doc 20000)
        (textrank_summarize (extract_article_text doc 20000) 4) hfav
    ∧ (api_summarize url true hfav (.ok doc) hf).status = 200 := by
  have hmain : api_summarize url true hfav (.ok doc) hf =
      .ok (extract_article_text doc 20000)
        (textrank_summarize (extract_article_text doc 20000) 4) hfav := by
    rcases hhf with rfl | rfl <;>
      simp [api_summarize, hu, ha, okResponse, finalSummary, hfSummary, isFalsy]
  exact ⟨hmain, by rw [hmain]; rfl⟩

/-- Witness for C9 at a concrete request whose model call raises. -/
theorem api_hf_failure_falls_back_witness :
    api_summarize "u".toList true true (.ok exDocDiv) .raises =
      .ok (extract_article_text exDocDiv 20000)
        (textrank_summarize (extract_article_text exDocDiv 20000) 4) true :=
  (api_hf_failure_falls_back ("u".toList) (by decide) true exDocDiv (by decide)
    .raises (Or.inl rfl)).1

/-- Helper: inserting adds one to the length. -/
theorem insertDesc_length {α : Type} (sc : α → Nat) (x : α) (l : List α) :
    (insertDesc sc x l).length = l.length + 1 := by
  induction l with
  | nil => rfl
  | cons y ys ih =>
      unfold insertDesc
      split
      · rfl
      · simp [ih]

/-- Helper: sorting preserves the length. -/
theorem sortDesc_length {α : Type} (sc : α → Nat) (l : List α) :
    (sortDesc sc l).length = l.length := by
  induction l with
  | nil => rfl
  | cons x xs ih => simp [sortDesc, insertDesc_length, ih]

/-- Helper: inserting is a permutation of consing. -/
theorem insertDesc_perm {α : Type} (sc : α → Nat) (x : α) (l : List α) :
    List.Perm (insertDesc sc x l) (x :: l) := by
  induction l with
  | nil => exact List.Perm.refl _
  | cons y ys ih =>
      unfold insertDesc
      split
      · exact List.Perm.refl _
      · exact (ih.cons y).trans (List.Perm.swap x y ys)

/-- Helper: sorting permutes the list. -/
theorem sortDesc_perm {α : Type} (sc : α → Nat) (l : List α) :
    List.Perm (sortDesc sc l) l := by
  induction l with
  | nil => exact List.Perm.refl _
  | cons x xs ih => exact (insertDesc_perm sc x _).trans (ih.cons x)

/-- Helper: membership after inserting. -/
theorem mem_insertDesc {α : Type} {sc : α → Nat} {a x : α} {l : List α} :
    a ∈ insertDesc sc x l ↔ a = x ∨ a ∈ l := by
  rw [(insertDesc_perm sc x l).mem_iff]
  simp

/-- Helper: deduplication yields a sublist of the input. -/
theorem dedupFirstAux_sublist {α : Type} [DecidableEq α] (seen l : List α) :
    List.Sublist (dedupFirstAux seen l) l := by
  induction l generalizing seen with
  | nil => simp [dedupFirstAux]
  | cons x xs ih =>
      unfold dedupFirstAux
      split
      · exact (ih seen).cons x
      · exact (ih (x :: seen)).cons₂ x

/-- C1 counterexample: "A. A. A. A. A." splits into five sentences, strictly
more than four, but the score dict is keyed by the sentence string, so the
five duplicates collapse to one key and the summary is the single sentence
"A.", not four sentences. -/
theorem textrank_count_counterexample :
    4 < (splitSentences exRepText).length
    ∧ (selectedSentences exRepText 4).length ≠ 4
    ∧ textrank_summarize exRepText 4 = "A.".toList := by decide

/-- C1 amended: with more sentences than `n_sentences`, the output is the
join of the selected sentences; there are exactly
`min n_sentences (number of distinct sentences)` of them, and each is
verbatim one of the sentences of the split. -/
theorem textrank_selected_verbatim (text : List Char) (n : Nat)
    (h : n < (splitSentences text).length) :
    textrank_summarize text n = joinSp (selectedSentences text n)
    ∧ (selectedSentences text n).length =
        min n (dedupFirst (splitSentences text)).length
    ∧ ∀ s ∈ selectedSentences text n, s ∈ splitSentences text := by
  refine ⟨?_, ?_, ?_⟩
  · have h1 : ¬((splitSentences text).length ≤ n) := Nat.not_le.mpr h
    simp [textrank_summarize, h1]
  · unfold selectedSentences
    rw [List.length_take, sortDesc_length]
  · intro s hs
    have h1 : s ∈ sortDesc (sentenceScore text) (dedupFirst (splitSentences text)) :=
      List.Sublist.subset (List.take_sublist _ _) hs
    have h2 : s ∈ dedupFirst (splitSentences text) :=
      ((sortDesc_perm _ _).mem_iff).mp h1
    exact List.Sublist.subset (dedupFirstAux_sublist [] _) h2

/-- Witness for the amended C1 at a concrete three-sentence input. -/
theorem textrank_selected_verbatim_witness :
    (selectedSentences exText3 2).length =
      min 2 (dedupFirst (splitSentences exText3)).length :=
  (textrank_selected_verbatim exText3 2 (by decide)).2.1

/-- Helper: inserting keeps the list sorted by descending score. -/
theorem insertDesc_pairwise {α : Type} {sc : α → Nat} {x : α} {l : List α}
    (h : l.Pairwise (fun a b => sc b ≤ sc a)) :
    (insertDesc sc x l).Pairwise (fun a b => sc b ≤ sc a) := by
  induction l with
  | nil => simp [insertDesc]
  | cons y ys ih =>
      rw [List.pairwise_cons] at h
      unfold insertDesc
      split
      · rename_i hle
        refine List.pairwise_cons.mpr ⟨?_, List.pairwise_cons.mpr h⟩
        intro b hb
        rcases List.mem_cons.mp hb with rfl | hb1
        · exact hle
        · exact le_trans (h.1 b hb1) hle
      · rename_i hgt
        refine List.pairwise_cons.mpr ⟨?_, ih h.2⟩
        intro b hb
        rcases mem_insertDesc.mp hb with rfl | hb1
        · exact le_of_not_le hgt
        · exact h.1 b hb1

/-- Helper: the sort is sorted by descending score. -/
theorem sortDesc_pairwise {α : Type} (sc : α → Nat) (l : List α) :
    (sortDesc sc l).Pairwise (fun a b => sc b ≤ sc a) := by
  induction l with
  | nil => simp [sortDesc]
  | cons x xs ih => exact insertDesc_pairwise ih

/-- Helper: stability of the insertion, stated through filtering one score
class: the inserted element lands in front of its own class, every other
class is untouched. -/
theorem filter_insertDesc {α : Type} (sc : α → Nat) (k : Nat) (x : α)
    (l : List α) :
    (insertDesc sc x l).filter (fun a => sc a == k) =
      if sc x = k then x :: l.filter (fun a => sc a == k)
      else l.filter (fun a => sc a == k) := by
  induction l with
  | nil =>
      by_cases hk : sc x = k <;>
        simp [insertDesc, List.filter_cons, List.filter_nil, hk]
  | cons y ys ih =>
      unfold insertDesc
      split
      · by_cases hk : sc x = k <;> simp [List.filter_cons, hk]
      · rename_i hgt
        by_cases hk : sc x = k
        · have hy : ¬(sc y = k) := by omega
          simp [List.filter_cons, hk, hy, ih]
        · by_cases hy : sc y = k <;> simp [List.filter_cons, hk, hy, ih]

/-- Helper: stability of the sort relative to the input order, one score
class at a time. -/
theorem filter_sortDesc {α : Type} (sc : α → Nat) (k : Nat) (l : List α) :
    (sortDesc sc l).filter (fun a => sc a == k) = l.filter (fun a => sc a == k) := by
  induction l with
  | nil => rfl
  | cons x xs ih =>
      rw [sortDesc, filter_insertDesc]
      by_cases hk : sc x = k <;> simp [List.filter_cons, hk, ih]

/-- C5: past the no-op case, the output joins the selected sentences with a
single space in selection order: descending score, and inside each score
class the order of the selected sentences is an initial segment of the
first-occurrence order of the distinct sentences (the dict insertion
order). -/
theorem textrank_selection_order (text : List Char) (n : Nat)
    (h : n < (splitSentences text).length) :
    textrank_summarize text n = joinSp (selectedSentences text n)
    ∧ (selectedSentences text n).Pairwise
        (fun a b => sentenceScore text b ≤ sentenceScore text a)
    ∧ ∀ k : Nat, ∃ rest,
        (selectedSentences text n).filter (fun s => sentenceScore text s == k)
          ++ rest =
        (dedupFirst (splitSentences text)).filter
          (fun s => sentenceScore text s == k) := by
  refine ⟨?_, ?_, fun k => ?_⟩
  · have h1 : ¬((splitSentences text).length ≤ n) := Nat.not_le.mpr h
    simp [textrank_summarize, h1]
  · exact List.Pairwise.sublist (List.take_sublist _ _) (sortDesc_pairwise _ _)
  · refine ⟨((sortDesc (sentenceScore text)
        (dedupFirst (splitSentences text))).drop n).filter
          (fun s => sentenceScore text s == k), ?_⟩
    rw [selectedSentences, ← List.filter_append, List.take_append_drop,
      filter_sortDesc]

/-- Witness for C5 at a concrete three-sentence input with two requested
sentences. -/
theorem textrank_selection_order_witness :
    textrank_summarize exText3 2 = joinSp (selectedSentences exText3 2) :=
  (textrank_selection_order exText3 2 (by decide)).1

/-- Helper: the length of a single-space join of a nonempty list of pieces
is the sum of the pieces' lengths plus one separator between consecutive
pieces. -/
theorem joinSp_length {l : List (List Char)} (h : l ≠ []) :
    (joinSp l).length + 1 = (l.map List.length).sum + l.length := by
  induction l with
  | nil => cases h rfl
  | cons s rest ih =>
      cases rest with
      | nil => simp [joinSp]
      | cons t ts =>
          have h2 := ih (by simp)
          have hj : joinSp (s :: t :: ts) = s ++ ' ' :: joinSp (t :: ts) := rfl
          rw [hj]
          simp only [List.length_append, List.length_cons, List.map_cons,
            List.sum_cons] at h2 ⊢
          omega

/-- Helper: the sentence split consumes at least one whitespace character per
boundary, so the sentence lengths plus the number of sentences are bounded by
the text length plus one. -/
theorem splitAux_length_bound (l : List Char) :
    ∀ (cur : List Char) (skip : Bool),
      ((splitAux l cur skip).map List.length).sum + (splitAux l cur skip).length
        ≤ l.length + cur.length + 1 := by
  induction l with
  | nil => intro cur skip; cases skip <;> simp [splitAux]
  | cons c rest ih =>
      intro cur skip
      cases skip
      · simp only [splitAux]
        split
        · have h1 := ih [] true
          simp only [List.map_cons, List.sum_cons, List.length_cons,
            List.length_reverse, List.length_nil] at h1 ⊢
          omega
        · have h1 := ih (c :: cur) false
          simp only [List.length_cons] at h1 ⊢
          omega
      · simp only [splitAux]
        split
        · have h1 := ih cur true
          simp only [List.length_cons] at h1 ⊢
          omega
        · have h1 := ih [c] false
          simp only [List.length_cons, List.length_nil] at h1 ⊢
          omega

/-- Helper: the previous bound, phrased for `splitSentences`. -/
theorem splitSentences_length_bound (text : List Char) :
    ((splitSentences text).map List.length).sum + (splitSentences text).length
      ≤ text.length + 1 := by
  simpa [splitSentences] using splitAux_length_bound text [] false

/-- Helper: a sublist has smaller combined piece-length and count. -/
theorem sublist_sum_length_le {l1 l2 : List (List Char)}
    (h : List.Sublist l1 l2) :
    (l1.map List.length).sum + l1.length
      ≤ (l2.map List.length).sum + l2.length := by
  induction h with
  | slnil => simp
  | cons a h ih =>
      simp only [List.map_cons, List.sum_cons, List.length_cons]
      omega
  | cons₂ a h ih =>
      simp only [List.map_cons, List.sum_cons, List.length_cons]
      omega

/-- C6: the fallback summary is never longer than its input, for every text
and every positive `n_sentences`: either the input is returned unchanged, or
at most `n_sentences` of its own sentences are joined with single spaces,
while the input held the same sentences plus at-least-one-character
delimiters. -/
theorem textrank_never_expands (text : List Char) (n : Nat) (_hn : 0 < n) :
    (textrank_summarize text n).length ≤ text.length := by
  unfold textrank_summarize
  split
  · exact le_refl _
  · rcases hsel : selectedSentences text n with _ | ⟨s, rest⟩
    · simp [joinSp]
    · rw [← hsel]
      have h1 := joinSp_length (l := selectedSentences text n) (by rw [hsel]; simp)
      have h2 : ((selectedSentences text n).map List.length).sum
          + (selectedSentences text n).length
          ≤ ((sortDesc (sentenceScore text)
              (dedupFirst (splitSentences text))).map List.length).sum
            + (sortDesc (sentenceScore text)
                (dedupFirst (splitSentences text))).length :=
        sublist_sum_length_le (List.take_sublist _ _)
      have hperm := sortDesc_perm (sentenceScore text) (dedupFirst (splitSentences text))
      have h3 := (hperm.map List.length).sum_eq
      have h4 := hperm.length_eq
      have h5 := sublist_sum_length_le (dedupFirstAux_sublist [] (splitSentences text))
      have h6 := splitSentences_length_bound text
      have h7 : dedupFirstAux [] (splitSentences text) = dedupFirst (splitSentences text) := rfl
      rw [h7] at h5
      omega

/-- Witness for C6 at a concrete input. -/
theorem textrank_never_expands_witness :
    (textrank_summarize exText3 2).length ≤ exText3.length :=
  textrank_never_expands exText3 2 (by decide)

/-- Helper: after decomposition no element with a removed tag remains
anywhere in the forest. -/
theorem decompose_no_removed (f : HForest) :
    findAll removedTags (decompose f) = [] := by
  induction f with
  | nil => rfl
  | textCons s rest ih => simpa [decompose, findAll] using ih
  | elemCons tag ch rest ihc ihr =>
      by_cases h : tag ∈ removedTags
      · simpa [decompose, h] using ihr
      · simp [decompose, h, findAll, ihc, ihr]

/-- Helper: decomposition is idempotent. -/
theorem decompose_idem (f : HForest) :
    decompose (decompose f) = decompose f := by
  induction f with
  | nil => rfl
  | textCons s rest ih => simp [decompose, ih]
  | elemCons tag ch rest ihc ihr =>
      by_cases h : tag ∈ removedTags
      · simp [decompose, h, ihr]
      · simp [decompose, h, ihc, ihr]

/-- C7: the whole subtrees of script/style/noscript/iframe/header/footer/nav
elements are removed before candidates are collected and before the body
fallback: the pruned document has no such element left, and the extractor
output depends only on the pruned document (so text inside removed subtrees
never contributes to the output, on either path). -/
theorem extract_removed_never_contribute (doc : HForest) (max_chars : Nat) :
    findAll removedTags (decompose doc) = []
    ∧ extract_article_text (decompose doc) max_chars
        = extract_article_text doc max_chars := by
  refine ⟨decompose_no_removed doc, ?_⟩
  unfold extract_article_text
  rw [decompose_idem]

/-- Helper: `noWsRun` passes to the tail. -/
theorem noWsRun_tail {a : Char} {l : List Char} (h : noWsRun (a :: l) = true) :
    noWsRun l = true := by
  cases l with
  | nil => rfl
  | cons b bs =>
      simp only [noWsRun, Bool.and_eq_true] at h
      exact h.2

/-- Helper: the head pair of a `noWsRun` list is not double whitespace. -/
theorem noWsRun_head_pair {a b : Char} {l : List Char}
    (h : noWsRun (a :: b :: l) = true) : isWs a = false ∨ isWs b = false := by
  cases ha : isWs a
  · exact Or.inl rfl
  · right
    cases hb : isWs b
    · rfl
    · simp [noWsRun, ha, hb] at h

/-- Helper: cons preserves `noWsRun` when the new head cannot pair with the
old head into a whitespace run. -/
theorem noWsRun_cons {a : Char} {l : List Char} (hl : noWsRun l = true)
    (h : isWs a = false ∨ noLeadingWs l = true) : noWsRun (a :: l) = true := by
  cases l with
  | nil => rfl
  | cons b bs =>
      have hb : isWs a = false ∨ isWs b = false := by
        rcases h with h | h
        · exact Or.inl h
        · right
          simpa [noLeadingWs] using h
      simp only [noWsRun, Bool.and_eq_true]
      refine ⟨?_, hl⟩
      rcases hb with h1 | h1 <;> simp [h1]

/-- Helper: whitespace collapsing yields no whitespace run, and in
run-skipping mode the next emitted character is not whitespace. -/
theorem noWsRun_collapseAux (l : List Char) :
    noWsRun (collapseAux l true) = true
    ∧ noLeadingWs (collapseAux l true) = true
    ∧ noWsRun (collapseAux l false) = true := by
  induction l with
  | nil => exact ⟨rfl, rfl, rfl⟩
  | cons c rest ih =>
      by_cases hc : isWs c = true
      · refine ⟨?_, ?_, ?_⟩
        · simpa [collapseAux, hc] using ih.1
        · simpa [collapseAux, hc] using ih.2.1
        · have he : collapseAux (c :: rest) false = ' ' :: collapseAux rest true := by
            simp [collapseAux, hc]
          rw [he]
          exact noWsRun_cons ih.1 (Or.inr ih.2.1)
      · have hc2 : isWs c = false := by simpa using hc
        have he : collapseAux (c :: rest) true = c :: collapseAux rest false := by
          simp [collapseAux, hc2]
        have he2 : collapseAux (c :: rest) false = c :: collapseAux rest false := by
          simp [collapseAux, hc2]
        refine ⟨?_, ?_, ?_⟩
        · rw [he]
          exact noWsRun_cons ih.2.2 (Or.inl hc2)
        · rw [he]
          simp [noLeadingWs, hc2]
        · rw [he2]
          exact noWsRun_cons ih.2.2 (Or.inl hc2)

/-- Helper: whitespace collapsing yields no whitespace run. -/
theorem noWsRun_collapseWs (l : List Char) : noWsRun (collapseWs l) = true :=
  (noWsRun_collapseAux l).2.2

/-- Helper: right-trimming keeps the head of the string (or empties it). -/
theorem trimRight_head (l : List Char) :
    trimRight l = [] ∨ (trimRight l).head? = l.head? := by
  cases l with
  | nil => exact Or.inl rfl
  | cons c rest =>
      simp only [trimRight]
      cases htr : trimRight rest with
      | nil => by_cases hc : isWs c = true <;> simp [hc]
      | cons d ds => simp

/-- Helper: right-trimming preserves `noWsRun`. -/
theorem noWsRun_trimRight {l : List Char} (h : noWsRun l = true) :
    noWsRun (trimRight l) = true := by
  induction l with
  | nil => rfl
  | cons c rest ih =>
      have hrest := ih (noWsRun_tail h)
      simp only [trimRight]
      cases htr : trimRight rest with
      | nil => by_cases hc : isWs c = true <;> simp [hc, noWsRun]
      | cons d ds =>
          rw [htr] at hrest
          rcases trimRight_head rest with h0 | h0


          · rw [htr] at h0
            cases h0
          · rw [htr] at h0
            cases rest with
            | nil => simp at h0
            | cons e es =>
                simp only [List.head?_cons, Option.some.injEq] at h0
                subst h0
                apply noWsRun_cons hrest
                rcases noWsRun_head_pair h with h1 | h1
                · exact Or.inl h1
                · right
                  simp [noLeadingWs, h1]

/-- Helper: dropping leading whitespace leaves no leading whitespace. -/
theorem noLeadingWs_dropWhile (l : List Char) :
    noLeadingWs (l.dropWhile isWs) = true := by
  induction l with
  | nil => rfl
  | cons c rest ih =>
      by_cases hc : isWs c = true
      · simpa [List.dropWhile_cons, hc] using ih
      · have hc2 : isWs c = false := by simpa using hc
        simp [List.dropWhile_cons, hc2, noLeadingWs]

/-- Helper: dropping leading whitespace preserves `noWsRun`. -/
theorem noWsRun_dropWhile {l : List Char} (h : noWsRun l = true) :
    noWsRun (l.dropWhile isWs) = true := by
  induction l with
  | nil => rfl
  | cons c rest ih =>
      by_cases hc : isWs c = true
      · simpa [List.dropWhile_cons, hc] using ih (noWsRun_tail h)
      · have hc2 : isWs c = false := by simpa using hc
        simpa [List.dropWhile_cons, hc2] using h

/-- Helper: a list whose head matches a `noLeadingWs` list is `noLeadingWs`. -/
theorem noLeadingWs_of_head {l1 l2 : List Char} (h : l1.head? = l2.head?)
    (h2 : noLeadingWs l2 = true) : noLeadingWs l1 = true := by
  cases l1 with
  | nil => rfl
  | cons a as =>
      cases l2 with
      | nil => simp at h
      | cons b bs =>
          simp only [List.head?_cons, Option.some.injEq] at h
          subst h
          exact h2

/-- Helper: stripping never leaves leading whitespace. -/
theorem noLeadingWs_trim (l : List Char) : noLeadingWs (trim l) = true := by
  unfold trim
  rcases trimRight_head (l.dropWhile isWs) with h | h
  · rw [h]; rfl
  · exact noLeadingWs_of_head h (noLeadingWs_dropWhile l)

/-- Helper: stripping preserves `noWsRun`. -/
theorem noWsRun_trim {l : List Char} (h : noWsRun l = true) :
    noWsRun (trim l) = true :=
  noWsRun_trimRight (noWsRun_dropWhile h)

/-- Helper: prefix truncation preserves `noWsRun`. -/
theorem noWsRun_take (n : Nat) :
    ∀ {l : List Char}, noWsRun l = true → noWsRun (l.take n) = true := by
  induction n with
  | zero => intro l h; rfl
  | succ m ih =>
      intro l h
      cases l with
      | nil => rfl
      | cons c rest =>
          rw [List.take_succ_cons]
          refine noWsRun_cons (ih (noWsRun_tail h)) ?_
          cases rest with
          | nil => right; simp [List.take_nil, noLeadingWs]
          | cons b bs =>
              cases m with
              | zero => right; rfl
              | succ k =>
                  rcases noWsRun_head_pair h with h1 | h1
                  · exact Or.inl h1
                  · right
                    simp [List.take_succ_cons, noLeadingWs, h1]

/-- Helper: prefix truncation preserves `noLeadingWs`. -/
theorem noLeadingWs_take {l : List Char} (h : noLeadingWs l = true) (n : Nat) :
    noLeadingWs (l.take n) = true := by
  cases l with
  | nil => simp [List.take_nil]; rfl
  | cons c rest =>
      cases n with
      | zero => rfl
      | succ m => simpa [List.take_succ_cons, noLeadingWs] using h

/-- Helper: every piece yielded by `stripped_strings` is nonempty and starts
with a non-whitespace character. -/
theorem strippedStrings_pieces (f : HForest) :
    ∀ p ∈ strippedStrings f, noLeadingWs p = true ∧ p ≠ [] := by
  induction f with
  | nil => intro p hp; cases hp
  | textCons s rest ih =>
      intro p hp
      simp only [strippedStrings] at hp
      by_cases ht : trim s = []
      · rw [if_pos ht] at hp
        exact ih p (by simpa using hp)
      · rw [if_neg ht] at hp
        rcases List.mem_append.mp hp with h1 | h1
        · rcases List.mem_singleton.mp h1 with rfl
          exact ⟨noLeadingWs_trim s, ht⟩
        · exact ih p h1
  | elemCons tag ch rest ihc ihr =>
      intro p hp
      simp only [strippedStrings] at hp
      rcases List.mem_append.mp hp with h1 | h1
      · exact ihc p h1
      · exact ihr p h1

/-- Helper: joining nonempty head-clean pieces leaves no leading
whitespace. -/
theorem noLeadingWs_joinSp {ps : List (List Char)}
    (h : ∀ p ∈ ps, noLeadingWs p = true ∧ p ≠ []) :
    noLeadingWs (joinSp ps) = true := by
  cases ps with
  | nil => rfl
  | cons s rest =>
      have hs := h s (by simp)
      cases rest with
      | nil => exact hs.1
      | cons t ts =>
          have hj : joinSp (s :: t :: ts) = s ++ ' ' :: joinSp (t :: ts) := rfl
          rw [hj]
          cases s with
          | nil => cases hs.2 rfl
          | cons a as => simpa [noLeadingWs] using hs.1

/-- C3 counterexample: the body fallback preserves a whitespace run that
lies inside a single text node (it only strips the ends of each string), and
on the candidate path the prefix truncation can cut right after a space,
leaving trailing whitespace. -/
theorem extract_whitespace_counterexample :
    noWsRun (extract_article_text exDocBody 20000) = false
    ∧ extract_article_text exDocBody 20000 = "a\n\nb".toList
    ∧ noTrailingWs (extract_article_text exDocDiv 3) = false
    ∧ extract_article_text exDocDiv 3 = "ab ".toList := by decide

/-- C3 amended: every string returned by the extractor has no leading
whitespace; on the candidate-selection path it moreover contains no run of
two or more consecutive whitespace characters.  (Trailing whitespace can
survive prefix truncation on both paths, and the body fallback keeps
whitespace runs that occur inside a single text node.) -/
theorem extract_whitespace_invariant (doc : HForest) (max_chars : Nat) :
    noLeadingWs (extract_article_text doc max_chars) = true
    ∧ (findAll candidateTags (decompose doc) ≠ [] →
        noWsRun (extract_article_text doc max_chars) = true) := by
  unfold extract_article_text
  split
  · rename_i heq hbody
    constructor
    · exact noLeadingWs_take
        (noLeadingWs_joinSp (strippedStrings_pieces _)) max_chars
    · intro hc
      exact absurd heq hc
  · constructor
    · exact noLeadingWs_take (noLeadingWs_trim _) max_chars
    · intro hc
      exact noWsRun_take max_chars (noWsRun_trim (noWsRun_collapseWs _))

/-- Witness for the amended C3 at a concrete document with a candidate. -/
theorem extract_whitespace_invariant_witness :
    noWsRun (extract_article_text exDocDiv 3) = true :=
  (extract_whitespace_invariant exDocDiv 3).2 (by decide)

end ArticleSummary
